import Mathlib

/-!
Verification of `src/src/objectivex.cpp` (seqHMM): the objective function and
analytic gradient of a covariate-dependent mixture hidden Markov model.

The C++ function `objectivex` works on `double` arrays through Armadillo views.
We embed it shallowly: real numbers model doubles, integer masks stay integers,
and the flattened gradient vector is a `List ℝ`.  The external collaborators
`internalForwardx`, `internalBackward` and `reparma` are not part of the given
source tree; they are modelled from the specification (each such definition is
marked `Modelled from the spec:`).  Overflow of the `double` exponential
(`lweights.is_finite()` in the source) is modelled as the corresponding real
value exceeding `maxDouble`, the largest finite IEEE-754 double.
-/

namespace SeqHMM

open Finset

noncomputable section

/-- Input data of `objectivex` (lines 7–21 of `objectivex.cpp`).
`m`, `p1`, `rr` are `eDims[0..2]` (states, emission columns, channels);
`kk`, `nn` are `oDims[0..1]` (subjects, time points); `q = coefs.nrow()`.
`transition` is the M×M transition matrix, `emission s v r` the emission
cube, `init` the initial distribution π, `obs k t r` the observed symbol,
`ANZ`/`BNZ`/`INZ` the free-parameter masks (note `BNZ` has `p1 - 1` symbol
columns), `nSymbols r` the channel alphabet sizes, `X k c` the covariates and
`numberOfStates` the per-block state counts.  The mixture coefficient matrix
`coefs` is kept as a separate argument, as in the source signature. -/
structure HmmIn where
  m : ℕ
  p1 : ℕ
  rr : ℕ
  kk : ℕ
  nn : ℕ
  q : ℕ
  transition : ℕ → ℕ → ℝ
  emission : ℕ → ℕ → ℕ → ℝ
  init : ℕ → ℝ
  obs : ℕ → ℕ → ℕ → ℕ
  ANZ : ℕ → ℕ → ℤ
  BNZ : ℕ → ℕ → ℕ → ℤ
  INZ : ℕ → ℤ
  nSymbols : ℕ → ℕ
  X : ℕ → ℕ → ℝ
  numberOfStates : List ℕ

/-- Number of mixture blocks `J = numberOfStates.size()`. -/
def J (hm : HmmIn) : ℕ := hm.numberOfStates.length

/-- Source expression `numberOfStates(jj)`, the size of block `jj`. -/
def nos (hm : HmmIn) (jj : ℕ) : ℕ := hm.numberOfStates.getD jj 0

/-- Source expression `cumsumstate(jj) = cumsum(numberOfStates)(jj)` (line 53). -/
def cumsumstate (hm : HmmIn) (jj : ℕ) : ℕ := (hm.numberOfStates.take (jj + 1)).sum

/-- Source expression `cumsumstate(jj) - numberOfStates(jj)`, the first state of block `jj`. -/
def blockStart (hm : HmmIn) (jj : ℕ) : ℕ := cumsumstate hm jj - nos hm jj

/-- Source expression `arma::accu(ANZ)` over the declared M×M extent. -/
def sumANZ (hm : HmmIn) : ℤ := ∑ i ∈ range hm.m, ∑ j ∈ range hm.m, hm.ANZ i j

/-- Source expression `arma::accu(BNZ)` over the declared M×(p1−1)×R extent. -/
def sumBNZ (hm : HmmIn) : ℤ :=
  ∑ r ∈ range hm.rr, ∑ i ∈ range hm.m, ∑ v ∈ range (hm.p1 - 1), hm.BNZ i v r

/-- Source expression `arma::accu(INZ)` over the declared length-M extent. -/
def sumINZ (hm : HmmIn) : ℤ := ∑ i ∈ range hm.m, hm.INZ i

/-- Length of the allocated gradient vector (line 26):
`accu(ANZ) + accu(BNZ) + accu(INZ) + (numberOfStates.size()-1)*q`. -/
def allocLen (hm : HmmIn) : ℕ :=
  (sumANZ hm + sumBNZ hm + sumINZ hm + ((J hm : ℤ) - 1) * hm.q).toNat

/-- The largest finite IEEE-754 double, `std::numeric_limits<double>::max()`. -/
def maxDouble : ℝ := (2 ^ 53 - 1) * 2 ^ 971

/-- The coefficient matrix after `coef.col(0).zeros()` (lines 27–28): the
source copies `coefs` and zeroes the reference block's column. -/
def coefZ (coefs : ℕ → ℕ → ℝ) (c jx : ℕ) : ℝ := if jx = 0 then 0 else coefs c jx

/-- Entry `(k, jx)` of the linear predictor `X*coef` (line 30). -/
def linpred (hm : HmmIn) (coefs : ℕ → ℕ → ℝ) (k jx : ℕ) : ℝ :=
  ∑ c ∈ range hm.q, hm.X k c * coefZ coefs c jx

/-- Entry `(jx, k)` of `exp(X*coef).t()` (line 30), before normalization. -/
def lweights0 (hm : HmmIn) (coefs : ℕ → ℕ → ℝ) (jx k : ℕ) : ℝ :=
  Real.exp (linpred hm coefs k jx)

/-- The overflow guard `!lweights.is_finite()` (line 31): some entry of
`exp(X*coef)` exceeds the largest finite double.  In the real-number model an
exponential is never `NaN`, so non-finiteness is exactly exceeding
`maxDouble`. -/
def overflowP (hm : HmmIn) (coefs : ℕ → ℕ → ℝ) : Prop :=
  ∃ jx < J hm, ∃ k < hm.kk, maxDouble < lweights0 hm coefs jx k

/-- Entry `(jx, k)` of `lweights` after the column normalization
`lweights.each_row() /= sum(lweights,0)` (line 36). -/
def lweights (hm : HmmIn) (coefs : ℕ → ℕ → ℝ) (jx k : ℕ) : ℝ :=
  lweights0 hm coefs jx k / ∑ jp ∈ range (J hm), lweights0 hm coefs jp k

/-- Modelled from the spec: `reparma` (declared in `seqHMM.h`, source not in
the tree) repeats the block value `v j` `numberOfStates(j)` times; §4.2 of the
spec: "a block-broadcast of that subject's mixture weights (every state in
block j is multiplied by mixture weight for block j)".  `j0` is the index of
the first block of the remaining list. -/
def reparmaAux (v : ℕ → ℝ) : List ℕ → ℕ → List ℝ
  | [], _ => []
  | nb :: rest, j0 => List.replicate nb (v j0) ++ reparmaAux v rest (j0 + 1)

/-- Modelled from the spec: `reparma(values, numberOfStates)`. -/
def reparma (v : ℕ → ℝ) (nosL : List ℕ) : List ℝ := reparmaAux v nosL 0

/-- Source expression `initk.col(k) = init % reparma(lweights.col(k), numberOfStates)`
(lines 38–41), with the mixture weights `w` passed explicitly. -/
def initk (hm : HmmIn) (w : ℕ → ℕ → ℝ) (s k : ℕ) : ℝ :=
  hm.init s * (reparma (fun jx => w jx k) hm.numberOfStates).getD s 0

/-- The multichannel emission probability of state `s` for the symbols
observed on subject `k` at time `t`: `∏_r emission(s, obs(k,t,r), r)`. -/
def emisAt (hm : HmmIn) (s k t : ℕ) : ℝ :=
  ∏ r ∈ range hm.rr, hm.emission s (hm.obs k t r) r

/-- Modelled from the spec: the unscaled forward value of `internalForwardx`
(§4.3: scaled forward recursion; at each time the unscaled values are computed
from the previous scaled ones and the removed scale is their sum). -/
def alphaU (hm : HmmIn) (w : ℕ → ℕ → ℝ) (k : ℕ) : ℕ → ℕ → ℝ
  | 0 => fun s => initk hm w s k * emisAt hm s k 0
  | t + 1 => fun s =>
      (∑ i ∈ range hm.m,
        (alphaU hm w k t i / ∑ sp ∈ range hm.m, alphaU hm w k t sp) * hm.transition i s)
        * emisAt hm s k (t + 1)

/-- Modelled from the spec: `scales(t,k)`, the per-(time, subject) scale
factor of the forward pass (§4.3: the scale removed so that the scaled forward
probabilities over states sum to 1). -/
def scales (hm : HmmIn) (w : ℕ → ℕ → ℝ) (t k : ℕ) : ℝ :=
  ∑ s ∈ range hm.m, alphaU hm w k t s

/-- Modelled from the spec: `alpha(s,t,k)`, the scaled forward value. -/
def alpha (hm : HmmIn) (w : ℕ → ℕ → ℝ) (s t k : ℕ) : ℝ :=
  alphaU hm w k t s / scales hm w t k

/-- Modelled from the spec: the backward recursion of `internalBackward`
(§4.3: scaled backward values consistent with the forward scaling), indexed by
the distance `d = (nn-1) - t` from the final time point. -/
def betaRev (hm : HmmIn) (w : ℕ → ℕ → ℝ) (k : ℕ) : ℕ → ℕ → ℝ
  | 0 => fun _ => 1 / scales hm w (hm.nn - 1) k
  | d + 1 => fun s =>
      (∑ j ∈ range hm.m,
        hm.transition s j * emisAt hm j k (hm.nn - 1 - d) * betaRev hm w k d j)
        / scales hm w (hm.nn - 1 - (d + 1)) k

/-- Modelled from the spec: `beta(s,t,k)`, the scaled backward value. -/
def betav (hm : HmmIn) (w : ℕ → ℕ → ℝ) (s t k : ℕ) : ℝ :=
  betaRev hm w k (hm.nn - 1 - t) s

/-- Source expression `find(ANZ.row(cumsumstate(jj)-numberOfStates(jj)+i).subvec(...))` (line
61): the within-block destination indices with a nonzero transition mask. -/
def indA (hm : HmmIn) (jj i : ℕ) : List ℕ :=
  (List.range (nos hm jj)).filter
    (fun j => hm.ANZ (blockStart hm jj + i) (blockStart hm jj + j) ≠ 0)

/-- The block-restricted transition row of source state `i` of block `jj`:
`transition.row(cumsumstate(jj)-numberOfStates(jj)+i).subvec(...)`. -/
def pA (hm : HmmIn) (jj i b : ℕ) : ℝ :=
  hm.transition (blockStart hm jj + i) (blockStart hm jj + b)

/-- Source expression `gradArow(b)` before the Jacobian (lines 69–79): the raw transition
gradient of source state `i` toward destination `b` inside block `jj`. -/
def rawA (hm : HmmIn) (w : ℕ → ℕ → ℝ) (jj i b : ℕ) : ℝ :=
  ∑ k ∈ range hm.kk, ∑ t ∈ range (hm.nn - 1),
    alpha hm w (blockStart hm jj + i) t k * emisAt hm (blockStart hm jj + b) k (t + 1)
      * betav hm w (blockStart hm jj + b) (t + 1) k / scales hm w (t + 1) k

/-- Source expression `(gradA * gradArow).rows(ind)` (lines 64–81): the Jacobian
`gradA(a,b) = (δ_ab − p(b))·p(a)` applied to the raw row, restricted to the
masked indices.  The empty-`ind` skip of line 63 produces an empty list. -/
def segA (hm : HmmIn) (w : ℕ → ℕ → ℝ) (jj i : ℕ) : List ℝ :=
  (indA hm jj i).map (fun a =>
    ∑ b ∈ range (nos hm jj),
      ((if a = b then (1 : ℝ) else 0) - pA hm jj i b) * pA hm jj i a * rawA hm w jj i b)

/-- The transition part of the gradient vector (lines 56–86): all block rows
in loop order, guarded by `accu(ANZ) > 0`. -/
def transSegs (hm : HmmIn) (w : ℕ → ℕ → ℝ) : List ℝ :=
  if 0 < sumANZ hm then
    (List.range (J hm)).flatMap (fun jj =>
      (List.range (nos hm jj)).flatMap (fun i => segA hm w jj i))
  else []

/-- Source expression `find(BNZ.slice(r).row(i))` (line 93): the symbol indices (over the
`p1 - 1` mask columns) with a nonzero emission mask. -/
def indB (hm : HmmIn) (r i : ℕ) : List ℕ :=
  (List.range (hm.p1 - 1)).filter (fun v => hm.BNZ i v r ≠ 0)

/-- Source expression `emission.slice(r).row(i).subvec(0, nSymbols[r]-1)`: the channel-`r`
emission row of state `i`. -/
def pB (hm : HmmIn) (r i v : ℕ) : ℝ := hm.emission i v r

/-- Source expression `tmp` of lines 102–107 / 112–117: the product of the other channels'
emission probabilities at state `i` for the symbols observed at time `t`. -/
def otherProd (hm : HmmIn) (r i k t : ℕ) : ℝ :=
  ∏ r2 ∈ (range hm.rr).filter (fun r2 => r2 ≠ r), hm.emission i (hm.obs k t r2) r2

/-- Source expression `gradBrow(j)` before the Jacobian (lines 99–122): the raw emission
gradient of state `i`, channel `r`, symbol `j`. -/
def rawB (hm : HmmIn) (w : ℕ → ℕ → ℝ) (r i j : ℕ) : ℝ :=
  ∑ k ∈ range hm.kk,
    ((if hm.obs k 0 r = j then
        initk hm w i k * otherProd hm r i k 0 * betav hm w i 0 k / scales hm w 0 k
      else 0)
      + ∑ t ∈ range (hm.nn - 1),
          if hm.obs k (t + 1) r = j then
            (∑ s ∈ range hm.m, alpha hm w s t k * hm.transition s i)
              * otherProd hm r i k (t + 1) * betav hm w i (t + 1) k / scales hm w (t + 1) k
          else 0)

/-- Source expression `(gradB * gradBrow).rows(ind)` (lines 96–124) for channel `r`, state
`i`. -/
def segB (hm : HmmIn) (w : ℕ → ℕ → ℝ) (r i : ℕ) : List ℝ :=
  (indB hm r i).map (fun a =>
    ∑ b ∈ range (hm.nSymbols r),
      ((if a = b then (1 : ℝ) else 0) - pB hm r i b) * pB hm r i a * rawB hm w r i b)

/-- The emission part of the gradient vector (lines 87–130): channels, then
states, guarded by `accu(BNZ) > 0`. -/
def emisSegs (hm : HmmIn) (w : ℕ → ℕ → ℝ) : List ℝ :=
  if 0 < sumBNZ hm then
    (List.range hm.rr).flatMap (fun r =>
      (List.range hm.m).flatMap (fun i => segB hm w r i))
  else []

/-- Source expression `find(INZ.subvec(...))` (line 133): within-block indices with a nonzero
initial mask. -/
def indI (hm : HmmIn) (i : ℕ) : List ℕ :=
  (List.range (nos hm i)).filter (fun j => hm.INZ (blockStart hm i + j) ≠ 0)

/-- Source expression `init.subvec(...)`: the block-`i` slice of the initial distribution π. -/
def pI (hm : HmmIn) (i j : ℕ) : ℝ := hm.init (blockStart hm i + j)

/-- Source expression `gradIrow(j)` before the Jacobian (lines 135–144): the raw initial
gradient of state `j` of block `i`. -/
def rawI (hm : HmmIn) (w : ℕ → ℕ → ℝ) (i j : ℕ) : ℝ :=
  ∑ k ∈ range hm.kk,
    emisAt hm (blockStart hm i + j) k 0 * betav hm w (blockStart hm i + j) 0 k
      / scales hm w 0 k * w i k

/-- Source expression `(gradI * gradIrow).rows(ind)` (lines 145–150) for block `i`. -/
def segI (hm : HmmIn) (w : ℕ → ℕ → ℝ) (i : ℕ) : List ℝ :=
  (indI hm i).map (fun a =>
    ∑ b ∈ range (nos hm i),
      ((if a = b then (1 : ℝ) else 0) - pI hm i b) * pI hm i a * rawI hm w i b)

/-- The initial part of the gradient vector (lines 131–154), guarded by
`accu(INZ) > 0`. -/
def initSegs (hm : HmmIn) (w : ℕ → ℕ → ℝ) : List ℝ :=
  if 0 < sumINZ hm then (List.range (J hm)).flatMap (fun i => segI hm w i) else []

/-- Coordinate `c` of the q-length mixture-coefficient contribution of
non-reference block `jj` (lines 156–172): each subject `k` and full-space
state `j` adds `tmp * beta(j,0,k)/scales(0,k) * initk(j,k) * X(k,c)` with
factor `1 − lweights(jj,k)` when `j` lies in block `jj`, and subtracts the
same with factor `lweights(jj,k)` otherwise. -/
def mixSeg (hm : HmmIn) (w : ℕ → ℕ → ℝ) (jj : ℕ) : List ℝ :=
  (List.range hm.q).map (fun c =>
    ∑ k ∈ range hm.kk, ∑ j ∈ range hm.m,
      if blockStart hm jj ≤ j ∧ j < cumsumstate hm jj then
        emisAt hm j k 0 * betav hm w j 0 k / scales hm w 0 k * initk hm w j k
          * hm.X k c * (1 - w jj k)
      else
        -(emisAt hm j k 0 * betav hm w j 0 k / scales hm w 0 k * initk hm w j k
          * hm.X k c * w jj k))

/-- The mixture-coefficient part of the gradient: blocks `1 … J−1` in order
(the loop of line 156 starts at `jj = 1`). -/
def mixFlat (hm : HmmIn) (w : ℕ → ℕ → ℝ) : List ℝ :=
  ((List.range (J hm)).drop 1).flatMap (fun jj => mixSeg hm w jj)

/-- All gradient entries in write order.  The source writes each segment at
the running offset `countgrad` (and the mixture part at `countgrad + q*(jj-1)`
just after it) into the zero vector of line 26, so the in-bounds writes
produce exactly this concatenation. -/
def gradWritten (hm : HmmIn) (w : ℕ → ℕ → ℝ) : List ℝ :=
  transSegs hm w ++ emisSegs hm w ++ initSegs hm w ++ mixFlat hm w

/-- The full gradient vector of length `allocLen`: the written entries
followed by the untouched zeros of the allocation of line 26. -/
def gradFull (hm : HmmIn) (w : ℕ → ℕ → ℝ) : List ℝ :=
  (gradWritten hm w ++ List.replicate (allocLen hm - (gradWritten hm w).length) 0).take
    (allocLen hm)

open scoped Classical in
/-- The returned pair `(objective, gradient)` (lines 31–34 and 173):
the overflow branch returns the sentinel pair, the normal branch returns
`-sum(ll)` with `ll = sum(log(scales))` and the negated gradient `-grad`. -/
def objectivex (hm : HmmIn) (coefs : ℕ → ℕ → ℝ) : ℝ × List ℝ :=
  if overflowP hm coefs then
    (maxDouble, List.replicate (allocLen hm) (-maxDouble))
  else
    (-(∑ k ∈ range hm.kk, ∑ t ∈ range hm.nn, Real.log (scales hm (lweights hm coefs) t k)),
      (gradFull hm (lweights hm coefs)).map (fun x => -x))

/-- The transition mask is an indicator (0/1) matrix. -/
@[reducible] def Mask01A (hm : HmmIn) : Prop :=
  ∀ i ∈ range hm.m, ∀ j ∈ range hm.m, hm.ANZ i j = 0 ∨ hm.ANZ i j = 1

/-- The emission mask is an indicator (0/1) cube. -/
@[reducible] def Mask01B (hm : HmmIn) : Prop :=
  ∀ i ∈ range hm.m, ∀ v ∈ range (hm.p1 - 1), ∀ r ∈ range hm.rr,
    hm.BNZ i v r = 0 ∨ hm.BNZ i v r = 1

/-- The initial mask is an indicator (0/1) vector. -/
@[reducible] def Mask01I (hm : HmmIn) : Prop :=
  ∀ i ∈ range hm.m, hm.INZ i = 0 ∨ hm.INZ i = 1

/-- Free transition entries only occur inside a block's own rows and columns
(§3 of the spec: cross-block transitions are structurally zero and never
estimated). -/
@[reducible] def BlockConfA (hm : HmmIn) : Prop :=
  ∀ jj ∈ range (J hm), ∀ a ∈ range (nos hm jj), ∀ b ∈ range hm.m,
    hm.ANZ (blockStart hm jj + a) b ≠ 0 →
      blockStart hm jj ≤ b ∧ b < cumsumstate hm jj

/-- The blocks partition the state space: the block sizes sum to M. -/
@[reducible] def BlocksCover (hm : HmmIn) : Prop := hm.numberOfStates.sum = hm.m

/-- Free emission entries only occur within the channel's alphabet. -/
@[reducible] def MaskBBound (hm : HmmIn) : Prop :=
  ∀ i ∈ range hm.m, ∀ v ∈ range (hm.p1 - 1), ∀ r ∈ range hm.rr,
    hm.BNZ i v r ≠ 0 → v < hm.nSymbols r

/-- The number of nonzero entries of the transition mask. -/
def nnzA (hm : HmmIn) : ℕ :=
  ∑ i ∈ range hm.m, ∑ j ∈ range hm.m, if hm.ANZ i j ≠ 0 then 1 else 0

/-- The number of nonzero entries of the emission mask. -/
def nnzB (hm : HmmIn) : ℕ :=
  ∑ r ∈ range hm.rr, ∑ i ∈ range hm.m, ∑ v ∈ range (hm.p1 - 1),
    if hm.BNZ i v r ≠ 0 then 1 else 0

/-- The number of nonzero entries of the initial mask. -/
def nnzI (hm : HmmIn) : ℕ :=
  ∑ i ∈ range hm.m, if hm.INZ i ≠ 0 then 1 else 0

/-- A small concrete model: 2 states in 2 singleton blocks, 1 channel with a
2-symbol alphabet, 1 subject, 2 time points, 1 covariate, diagonal transition
mask, full emission and initial masks, zero covariates. -/
def exS : HmmIn where
  m := 2
  p1 := 2
  rr := 1
  kk := 1
  nn := 2
  q := 1
  transition := fun _ _ => (1 : ℝ) / 2
  emission := fun _ _ _ => (1 : ℝ) / 2
  init := fun _ => (1 : ℝ) / 2
  obs := fun _ _ _ => 0
  ANZ := fun i j => if i = j then 1 else 0
  BNZ := fun _ v _ => if v = 0 then 1 else 0
  INZ := fun _ => 1
  nSymbols := fun _ => 2
  X := fun _ _ => 0
  numberOfStates := [1, 1]

/-- The zero coefficient matrix, used with `exS`. -/
def exCoefs : ℕ → ℕ → ℝ := fun _ _ => 0

/-- The small model with unit covariates, used to trigger the overflow
guard. -/
def exOv : HmmIn := { exS with X := fun _ _ => 1 }

/-- A coefficient matrix whose non-reference column is large enough that
`exp` exceeds the largest finite double. -/
def exOvCoefs : ℕ → ℕ → ℝ := fun _ _ => 2048

lemma filter_range_length (p : ℕ → Prop) [DecidablePred p] (n : ℕ) :
    ((List.range n).filter (fun x => decide (p x))).length
      = ∑ i ∈ range n, if p i then 1 else 0 := by
  induction n with
  | zero => simp
  | succ n ih =>
      rw [List.range_succ, List.filter_append, List.length_append,
        Finset.sum_range_succ, ih]
      by_cases hp : p n <;> simp [hp]

lemma flatMap_range_length {α : Type*} (f : ℕ → List α) (n : ℕ) :
    ((List.range n).flatMap f).length = ∑ i ∈ range n, (f i).length := by
  induction n with
  | zero => simp
  | succ n ih => rw [List.range_succ, List.flatMap_append, List.length_append,
      Finset.sum_range_succ, ih]; simp

lemma sum_over_blocks {M : Type*} [AddCommMonoid M] (L : List ℕ) (f : ℕ → M) :
    ∑ jj ∈ range L.length, ∑ i ∈ range (L.getD jj 0), f ((L.take jj).sum + i)
      = ∑ s ∈ range L.sum, f s := by
  induction L generalizing f with
  | nil => simp
  | cons a rest ih =>
      rw [List.length_cons, Finset.sum_range_succ']
      simp only [List.getD_cons_succ, List.getD_cons_zero, List.take_succ_cons,
        List.take_zero, List.sum_cons, List.sum_nil, Nat.zero_add]
      rw [Finset.sum_range_add]
      have hshift :
          ∑ jj ∈ range rest.length, ∑ i ∈ range (rest.getD jj 0),
              f (a + (rest.take jj).sum + i)
            = ∑ s ∈ range rest.sum, f (a + s) := by
        simpa [add_assoc] using ih (fun s => f (a + s))
      rw [hshift]
      exact add_comm _ _

lemma blockStart_eq (hm : HmmIn) (jj : ℕ) :
    blockStart hm jj = (hm.numberOfStates.take jj).sum := by
  unfold blockStart cumsumstate nos
  by_cases h : jj < hm.numberOfStates.length
  · rw [List.sum_take_succ _ _ h, List.getD_eq_getElem _ _ h]
    simp
  · push_neg at h
    rw [List.take_of_length_le (by omega), List.take_of_length_le h,
      List.getD_eq_default _ _ h]
    simp

lemma cumsumstate_eq (hm : HmmIn) (jj : ℕ) :
    cumsumstate hm jj = blockStart hm jj + nos hm jj := by
  unfold cumsumstate nos
  rw [blockStart_eq]
  by_cases h : jj < hm.numberOfStates.length
  · rw [List.sum_take_succ _ _ h, List.getD_eq_getElem _ _ h]
  · push_neg at h
    rw [List.take_of_length_le (by omega), List.take_of_length_le h,
      List.getD_eq_default _ _ h]
    simp [blockStart_eq, List.take_of_length_le h]

lemma take_sum_mono (L : List ℕ) {a b : ℕ} (h : a ≤ b) :
    (L.take a).sum ≤ (L.take b).sum := by
  have h1 : L.take a = (L.take b).take a := by
    rw [List.take_take, min_eq_left h]
  rw [h1]
  conv_rhs => rw [← List.take_append_drop a (L.take b)]
  rw [List.sum_append]
  exact Nat.le_add_right _ _

lemma cumsumstate_le_blockStart (hm : HmmIn) {jj' jj : ℕ} (h : jj' < jj) :
    cumsumstate hm jj' ≤ blockStart hm jj := by
  rw [blockStart_eq]
  unfold cumsumstate
  exact take_sum_mono _ (by omega)

lemma cumsumstate_le_sum (hm : HmmIn) (jj : ℕ) :
    cumsumstate hm jj ≤ hm.numberOfStates.sum := by
  unfold cumsumstate
  conv_rhs => rw [← List.take_append_drop (jj + 1) hm.numberOfStates]
  rw [List.sum_append]
  exact Nat.le_add_right _ _

lemma sum_blocks {M : Type*} [AddCommMonoid M] (hm : HmmIn) (f : ℕ → M)
    (hcov : BlocksCover hm) :
    ∑ jj ∈ range (J hm), ∑ i ∈ range (nos hm jj), f (blockStart hm jj + i)
      = ∑ s ∈ range hm.m, f s := by
  rw [← hcov]
  have h1 : ∀ jj ∈ range (J hm), ∑ i ∈ range (nos hm jj), f (blockStart hm jj + i)
      = ∑ i ∈ range (hm.numberOfStates.getD jj 0), f ((hm.numberOfStates.take jj).sum + i) := by
    intro jj _
    apply Finset.sum_congr rfl
    intro i _
    rw [blockStart_eq]
  rw [Finset.sum_congr rfl h1]
  exact sum_over_blocks hm.numberOfStates f

lemma sumANZ_eq (hm : HmmIn) (hA : Mask01A hm) : sumANZ hm = (nnzA hm : ℤ) := by
  unfold sumANZ nnzA
  push_cast
  apply Finset.sum_congr rfl
  intro i hi
  apply Finset.sum_congr rfl
  intro j hj
  rcases hA i hi j hj with h | h <;> simp [h]

lemma sumBNZ_eq (hm : HmmIn) (hB : Mask01B hm) : sumBNZ hm = (nnzB hm : ℤ) := by
  unfold sumBNZ nnzB
  push_cast
  apply Finset.sum_congr rfl
  intro r hr
  apply Finset.sum_congr rfl
  intro i hi
  apply Finset.sum_congr rfl
  intro v hv
  rcases hB i hi v hv r hr with h | h <;> simp [h]

lemma sumINZ_eq (hm : HmmIn) (hI : Mask01I hm) : sumINZ hm = (nnzI hm : ℤ) := by
  unfold sumINZ nnzI
  push_cast
  apply Finset.sum_congr rfl
  intro i hi
  rcases hI i hi with h | h <;> simp [h]

lemma length_indA (hm : HmmIn) (jj i : ℕ) :
    (indA hm jj i).length
      = ∑ b ∈ range (nos hm jj),
          if hm.ANZ (blockStart hm jj + i) (blockStart hm jj + b) ≠ 0 then 1 else 0 :=
  filter_range_length _ _

lemma length_indB (hm : HmmIn) (r i : ℕ) :
    (indB hm r i).length
      = ∑ v ∈ range (hm.p1 - 1), if hm.BNZ i v r ≠ 0 then 1 else 0 :=
  filter_range_length _ _

lemma length_indI (hm : HmmIn) (i : ℕ) :
    (indI hm i).length
      = ∑ b ∈ range (nos hm i), if hm.INZ (blockStart hm i + b) ≠ 0 then 1 else 0 :=
  filter_range_length _ _

lemma length_transSegs (hm : HmmIn) (w : ℕ → ℕ → ℝ) (hA : Mask01A hm)
    (hbl : BlockConfA hm) (hcov : BlocksCover hm) :
    (transSegs hm w).length = nnzA hm := by
  unfold transSegs
  by_cases hg : 0 < sumANZ hm
  · rw [if_pos hg, flatMap_range_length]
    have hrow : ∀ jj ∈ range (J hm),
        ((List.range (nos hm jj)).flatMap (fun i => segA hm w jj i)).length
          = ∑ i ∈ range (nos hm jj), ∑ b ∈ range (nos hm jj),
              if hm.ANZ (blockStart hm jj + i) (blockStart hm jj + b) ≠ 0 then 1 else 0 := by
      intro jj _
      rw [flatMap_range_length]
      apply Finset.sum_congr rfl
      intro i _
      rw [← length_indA]
      simp [segA]
    rw [Finset.sum_congr rfl hrow]
    have hcol : ∀ jj ∈ range (J hm), ∀ i ∈ range (nos hm jj),
        ∑ b ∈ range (nos hm jj),
            (if hm.ANZ (blockStart hm jj + i) (blockStart hm jj + b) ≠ 0 then 1 else 0)
          = ∑ c ∈ range hm.m, if hm.ANZ (blockStart hm jj + i) c ≠ 0 then 1 else 0 := by
      intro jj hjj i hi
      rw [← sum_blocks hm
        (fun c => if hm.ANZ (blockStart hm jj + i) c ≠ 0 then (1 : ℕ) else 0) hcov]
      symm
      apply Finset.sum_eq_single_of_mem jj hjj
      intro jj' hjj' hne
      apply Finset.sum_eq_zero
      intro b hb
      simp only [ite_eq_right_iff]
      intro hnz
      exfalso
      have hbcs : blockStart hm jj' + b < cumsumstate hm jj' := by
        rw [cumsumstate_eq]
        exact Nat.add_lt_add_left (Finset.mem_range.mp hb) _
      have hbm : blockStart hm jj' + b < hm.m :=
        lt_of_lt_of_le hbcs (hcov ▸ cumsumstate_le_sum hm jj')
      have hconf := hbl jj hjj i hi (blockStart hm jj' + b) (Finset.mem_range.mpr hbm) hnz
      rcases lt_or_gt_of_ne hne with hlt | hgt
      · have hle := cumsumstate_le_blockStart hm hlt
        omega
      · have hle := cumsumstate_le_blockStart hm hgt
        omega
    have h2 : ∀ jj ∈ range (J hm),
        (∑ i ∈ range (nos hm jj), ∑ b ∈ range (nos hm jj),
            if hm.ANZ (blockStart hm jj + i) (blockStart hm jj + b) ≠ 0 then 1 else 0)
          = ∑ i ∈ range (nos hm jj),
              ∑ c ∈ range hm.m, if hm.ANZ (blockStart hm jj + i) c ≠ 0 then 1 else 0 :=
      fun jj hjj => Finset.sum_congr rfl (fun i hi => hcol jj hjj i hi)
    rw [Finset.sum_congr rfl h2]
    exact sum_blocks hm
      (fun s => ∑ c ∈ range hm.m, if hm.ANZ s c ≠ 0 then (1 : ℕ) else 0) hcov
  · rw [if_neg hg]
    have hs := sumANZ_eq hm hA
    simp only [List.length_nil]
    omega

lemma length_emisSegs (hm : HmmIn) (w : ℕ → ℕ → ℝ) (hB : Mask01B hm) :
    (emisSegs hm w).length = nnzB hm := by
  unfold emisSegs
  by_cases hg : 0 < sumBNZ hm
  · rw [if_pos hg, flatMap_range_length]
    unfold nnzB
    apply Finset.sum_congr rfl
    intro r _
    rw [flatMap_range_length]
    apply Finset.sum_congr rfl
    intro i _
    rw [← length_indB]
    simp [segB]
  · rw [if_neg hg]
    have hs := sumBNZ_eq hm hB
    simp only [List.length_nil]
    omega

lemma length_initSegs (hm : HmmIn) (w : ℕ → ℕ → ℝ) (hI : Mask01I hm)
    (hcov : BlocksCover hm) :
    (initSegs hm w).length = nnzI hm := by
  unfold initSegs
  by_cases hg : 0 < sumINZ hm
  · rw [if_pos hg, flatMap_range_length]
    have h1 : ∀ i ∈ range (J hm), (segI hm w i).length
        = ∑ b ∈ range (nos hm i), if hm.INZ (blockStart hm i + b) ≠ 0 then 1 else 0 := by
      intro i _
      rw [← length_indI]
      simp [segI]
    rw [Finset.sum_congr rfl h1]
    exact sum_blocks hm (fun s => if hm.INZ s ≠ 0 then (1 : ℕ) else 0) hcov
  · rw [if_neg hg]
    have hs := sumINZ_eq hm hI
    simp only [List.length_nil]
    omega

lemma length_mixSeg (hm : HmmIn) (w : ℕ → ℕ → ℝ) (jj : ℕ) :
    (mixSeg hm w jj).length = hm.q := by
  simp [mixSeg]

lemma length_mixFlat (hm : HmmIn) (w : ℕ → ℕ → ℝ) :
    (mixFlat hm w).length = (J hm - 1) * hm.q := by
  unfold mixFlat
  rw [List.length_flatMap]
  have h1 : ((List.range (J hm)).drop 1).map (List.length ∘ mixSeg hm w)
      = List.replicate (J hm - 1) hm.q := by
    rw [List.eq_replicate_iff]
    constructor
    · simp
    · intro b hb
      rcases List.mem_map.mp hb with ⟨jj, _, hjj⟩
      rw [← hjj]
      exact length_mixSeg hm w jj
  rw [h1, List.sum_replicate, smul_eq_mul]

lemma allocLen_eq (hm : HmmIn) (hA : Mask01A hm) (hB : Mask01B hm) (hI : Mask01I hm)
    (hJ : 0 < J hm) :
    allocLen hm = nnzA hm + nnzB hm + nnzI hm + (J hm - 1) * hm.q := by
  unfold allocLen
  rw [sumANZ_eq hm hA, sumBNZ_eq hm hB, sumINZ_eq hm hI]
  have h1 : ((J hm : ℤ) - 1) = ((J hm - 1 : ℕ) : ℤ) := by omega
  rw [h1, ← Nat.cast_mul, ← Nat.cast_add, ← Nat.cast_add, ← Nat.cast_add,
    Int.toNat_natCast]

lemma length_gradWritten (hm : HmmIn) (w : ℕ → ℕ → ℝ) (hA : Mask01A hm)
    (hB : Mask01B hm) (hI : Mask01I hm) (hbl : BlockConfA hm) (hcov : BlocksCover hm) :
    (gradWritten hm w).length = nnzA hm + nnzB hm + nnzI hm + (J hm - 1) * hm.q := by
  unfold gradWritten
  rw [List.length_append, List.length_append, List.length_append,
    length_transSegs hm w hA hbl hcov, length_emisSegs hm w hB,
    length_initSegs hm w hI hcov, length_mixFlat hm w]

lemma gradFull_eq_written (hm : HmmIn) (w : ℕ → ℕ → ℝ) (hA : Mask01A hm)
    (hB : Mask01B hm) (hI : Mask01I hm) (hbl : BlockConfA hm) (hcov : BlocksCover hm)
    (hJ : 0 < J hm) :
    gradFull hm w = gradWritten hm w := by
  have hlen : (gradWritten hm w).length = allocLen hm := by
    rw [length_gradWritten hm w hA hB hI hbl hcov, allocLen_eq hm hA hB hI hJ]
  unfold gradFull
  rw [hlen, Nat.sub_self, List.replicate_zero, List.append_nil]
  exact List.take_of_length_le hlen.le

lemma length_gradFull (hm : HmmIn) (w : ℕ → ℕ → ℝ) :
    (gradFull hm w).length = allocLen hm := by
  unfold gradFull
  rw [List.length_take, List.length_append, List.length_replicate]
  omega

lemma reparmaAux_getD (v : ℕ → ℝ) (L : List ℕ) (j0 jj i : ℕ)
    (hjj : jj < L.length) (hi : i < L.getD jj 0) :
    (reparmaAux v L j0).getD ((L.take jj).sum + i) 0 = v (j0 + jj) := by
  induction L generalizing j0 jj i with
  | nil => simp at hjj
  | cons a rest ih =>
      cases jj with
      | zero =>
          have hia : i < a := by simpa using hi
          simp only [List.take_zero, List.sum_nil, Nat.zero_add, reparmaAux]
          rw [List.getD_eq_getElem?_getD,
            List.getElem?_append_left (by simpa using hia),
            List.getElem?_replicate]
          simp [hia]
      | succ jj =>
          have hjr : jj < rest.length := by simpa using hjj
          have hir : i < rest.getD jj 0 := by simpa using hi
          simp only [List.take_succ_cons, List.sum_cons, reparmaAux]
          rw [List.getD_eq_getElem?_getD,
            List.getElem?_append_right (by simp; omega)]
          simp only [List.length_replicate]
          have hidx : a + (rest.take jj).sum + i - a = (rest.take jj).sum + i := by
            omega
          rw [hidx, ← List.getD_eq_getElem?_getD]
          rw [ih (j0 + 1) jj i hjr hir]
          congr 1
          omega

lemma objectivex_of_overflow (hm : HmmIn) (coefs : ℕ → ℕ → ℝ)
    (h : overflowP hm coefs) :
    objectivex hm coefs = (maxDouble, List.replicate (allocLen hm) (-maxDouble)) := by
  unfold objectivex
  rw [if_pos h]

lemma objectivex_of_finite (hm : HmmIn) (coefs : ℕ → ℕ → ℝ)
    (h : ¬ overflowP hm coefs) :
    objectivex hm coefs
      = (-(∑ k ∈ range hm.kk, ∑ t ∈ range hm.nn,
            Real.log (scales hm (lweights hm coefs) t k)),
         (gradFull hm (lweights hm coefs)).map (fun x => -x)) := by
  unfold objectivex
  rw [if_neg h]

lemma exS_nov : ¬ overflowP exS exCoefs := by
  unfold overflowP
  push_neg
  intro jx _ k _
  unfold lweights0 linpred
  have h0 : (∑ c ∈ range exS.q, exS.X k c * coefZ exCoefs c jx) = 0 := by
    apply Finset.sum_eq_zero
    intro c _
    have hx : exS.X k c = 0 := rfl
    rw [hx, zero_mul]
  rw [h0, Real.exp_zero]
  unfold maxDouble
  norm_num

lemma exOv_overflow : overflowP exOv exOvCoefs := by
  refine ⟨1, by decide, 0, by decide, ?_⟩
  have hl : linpred exOv exOvCoefs 0 1 = 2048 := by
    unfold linpred coefZ exOvCoefs
    have hq : exOv.q = 1 := rfl
    rw [hq]
    norm_num
    rfl
  unfold lweights0
  rw [hl]
  have e1 : (2 : ℝ) ≤ Real.exp 1 :=
    le_of_lt (lt_trans (by norm_num) Real.exp_one_gt_d9)
  have e3 : Real.exp (2048 : ℝ) = Real.exp 1 ^ (2048 : ℕ) := by
    rw [← Real.exp_nat_mul]
    norm_num
  have e2 : ((2 : ℝ)) ^ (2048 : ℕ) ≤ Real.exp 1 ^ (2048 : ℕ) :=
    pow_le_pow_left₀ (by norm_num) e1 2048
  have e4 : maxDouble < (2 : ℝ) ^ (2048 : ℕ) := by
    unfold maxDouble
    norm_num
  rw [e3]
  exact lt_of_lt_of_le e4 e2

/-- C1: for every invocation that returns, the gradient vector has total
length `|ANZ| + |BNZ| + |INZ| + (J−1)·q` (the nonzero counts of the masks
plus `(J−1)·q`), and on the normal path its entries are the transition,
emission, initial and mixture-coefficient segments in that fixed order; in
the degenerate `J = 1` case the mixture segment is empty.  The mask
hypotheses say the masks are 0/1 indicators, free transition entries are
intra-block and the blocks partition the state space. -/
theorem c1_gradient_length_and_layout (hm : HmmIn) (coefs : ℕ → ℕ → ℝ)
    (hA : Mask01A hm) (hB : Mask01B hm) (hI : Mask01I hm)
    (hbl : BlockConfA hm) (hcov : BlocksCover hm) (hJ : 0 < J hm) :
    ((objectivex hm coefs).2).length
        = nnzA hm + nnzB hm + nnzI hm + (J hm - 1) * hm.q
      ∧ (J hm = 1 → mixFlat hm (lweights hm coefs) = [])
      ∧ (¬ overflowP hm coefs →
          (objectivex hm coefs).2
            = (transSegs hm (lweights hm coefs) ++ emisSegs hm (lweights hm coefs)
                ++ initSegs hm (lweights hm coefs)
                ++ mixFlat hm (lweights hm coefs)).map (fun x => -x)) := by
  refine ⟨?_, ?_, ?_⟩
  · by_cases hov : overflowP hm coefs
    · rw [objectivex_of_overflow hm coefs hov]
      simp only [List.length_replicate]
      exact allocLen_eq hm hA hB hI hJ
    · rw [objectivex_of_finite hm coefs hov]
      simp only [List.length_map]
      rw [length_gradFull]
      exact allocLen_eq hm hA hB hI hJ
  · intro h1
    unfold mixFlat
    rw [h1]
    rfl
  · intro hnov
    rw [objectivex_of_finite hm coefs hnov]
    simp only []
    rw [gradFull_eq_written hm (lweights hm coefs) hA hB hI hbl hcov hJ]
    rfl

/-- Witness for C1 at the concrete model `exS` (here with the degenerate
mixture-free layout facts evaluated on a 2-state, 2-block instance). -/
theorem c1_witness :
    Mask01A exS ∧ BlocksCover exS ∧ 0 < J exS ∧
      ((objectivex exS exCoefs).2).length
        = nnzA exS + nnzB exS + nnzI exS + (J exS - 1) * exS.q :=
  ⟨by decide, by decide, by decide,
    (c1_gradient_length_and_layout exS exCoefs (by decide) (by decide) (by decide)
      (by decide) (by decide) (by decide)).1⟩

/-- C2: on the non-overflow path the returned objective is the negated total
log-likelihood, the sum over subjects and time points of the logarithms of
the forward-pass scale factors. -/
theorem c2_objective_neg_log_likelihood (hm : HmmIn) (coefs : ℕ → ℕ → ℝ)
    (hnov : ¬ overflowP hm coefs) :
    (objectivex hm coefs).1
      = -(∑ k ∈ range hm.kk, ∑ t ∈ range hm.nn,
          Real.log (scales hm (lweights hm coefs) t k)) := by
  rw [objectivex_of_finite hm coefs hnov]

/-- Witness for C2 at the concrete model `exS`. -/
theorem c2_witness :
    ¬ overflowP exS exCoefs ∧
      (objectivex exS exCoefs).1
        = -(∑ k ∈ range exS.kk, ∑ t ∈ range exS.nn,
            Real.log (scales exS (lweights exS exCoefs) t k)) :=
  ⟨exS_nov, c2_objective_neg_log_likelihood exS exCoefs exS_nov⟩

/-- C3: if some entry of `exp(X·coef)` is non-finite (modelled as exceeding
the largest finite double), the call short-circuits and returns the sentinel
pair — objective `maxDouble` and a gradient of the full contracted length
filled with `-maxDouble`; otherwise it returns the normal objective/gradient
pair. -/
theorem c3_overflow_sentinel (hm : HmmIn) (coefs : ℕ → ℕ → ℝ) :
    (overflowP hm coefs →
        objectivex hm coefs = (maxDouble, List.replicate (allocLen hm) (-maxDouble)))
      ∧ (¬ overflowP hm coefs →
          objectivex hm coefs
            = (-(∑ k ∈ range hm.kk, ∑ t ∈ range hm.nn,
                  Real.log (scales hm (lweights hm coefs) t k)),
               (gradFull hm (lweights hm coefs)).map (fun x => -x))) :=
  ⟨objectivex_of_overflow hm coefs, objectivex_of_finite hm coefs⟩

/-- Witness for C3: the concrete overflowing model `exOv` with coefficient
2048 produces the sentinel pair. -/
theorem c3_witness :
    overflowP exOv exOvCoefs ∧
      objectivex exOv exOvCoefs
        = (maxDouble, List.replicate (allocLen exOv) (-maxDouble)) :=
  ⟨exOv_overflow, (c3_overflow_sentinel exOv exOvCoefs).1 exOv_overflow⟩

/-- C8: on the non-overflow path the mixture weight of subject `k` for block
`jx` is `exp((X·coef)(k,jx))` divided by the sum over blocks of
`exp((X·coef)(k,j'))`; for every subject the `J` weights are nonnegative and
sum to 1. -/
theorem c8_softmax_weights (hm : HmmIn) (coefs : ℕ → ℕ → ℝ) (hJ : 0 < J hm)
    (hnov : ¬ overflowP hm coefs) (k : ℕ) :
    (∀ jx, lweights hm coefs jx k
        = Real.exp (linpred hm coefs k jx)
          / ∑ jp ∈ range (J hm), Real.exp (linpred hm coefs k jp))
      ∧ (∑ jx ∈ range (J hm), lweights hm coefs jx k) = 1
      ∧ ∀ jx, 0 ≤ lweights hm coefs jx k := by
  have hD : 0 < ∑ jp ∈ range (J hm), lweights0 hm coefs jp k :=
    Finset.sum_pos (fun jp _ => Real.exp_pos _)
      (Finset.nonempty_range_iff.mpr (by omega))
  refine ⟨fun jx => rfl, ?_, fun jx => ?_⟩
  · unfold lweights
    rw [← Finset.sum_div]
    exact div_self (ne_of_gt hD)
  · exact div_nonneg (le_of_lt (Real.exp_pos _)) (le_of_lt hD)

/-- Witness for C8: the concrete model's two mixture weights sum to 1. -/
theorem c8_witness :
    0 < J exS ∧ ¬ overflowP exS exCoefs ∧
      (∑ jx ∈ range (J exS), lweights exS exCoefs jx 0) = 1 :=
  ⟨by decide, exS_nov, (c8_softmax_weights exS exCoefs (by decide) exS_nov 0).2.1⟩

/-- C9: the subject-specific initial vector multiplies π elementwise with the
block-broadcast mixture weights: for a state `s` of block `jj`,
`initk(s,k) = π(s) · lweights(jj,k)`. -/
theorem c9_initk_block_broadcast (hm : HmmIn) (coefs : ℕ → ℕ → ℝ)
    (jj s k : ℕ) (hjj : jj < J hm)
    (hs1 : blockStart hm jj ≤ s) (hs2 : s < cumsumstate hm jj) :
    initk hm (lweights hm coefs) s k = hm.init s * lweights hm coefs jj k := by
  unfold initk reparma
  congr 1
  have hbs := blockStart_eq hm jj
  have hcs := cumsumstate_eq hm jj
  have hs : s = (hm.numberOfStates.take jj).sum + (s - blockStart hm jj) := by omega
  have hi : s - blockStart hm jj < hm.numberOfStates.getD jj 0 := by
    unfold nos at hcs
    omega
  rw [hs, reparmaAux_getD _ _ 0 jj (s - blockStart hm jj) hjj hi, Nat.zero_add]

/-- Witness for C9: state 1 of block 1 in the concrete model. -/
theorem c9_witness :
    1 < J exS ∧ blockStart exS 1 ≤ 1 ∧ 1 < cumsumstate exS 1 ∧
      initk exS (lweights exS exCoefs) 1 0 = exS.init 1 * lweights exS exCoefs 1 0 :=
  ⟨by decide, by decide, by decide,
    c9_initk_block_broadcast exS exCoefs 1 1 0 (by decide) (by decide) (by decide)⟩

/-- C10: two coefficient matrices that agree outside column 0 produce the
same objective and the same gradient — the computation zeroes its own copy of
column 0 before any use, so the reference block's column never influences the
result. -/
theorem c10_reference_column_ignored (hm : HmmIn) (coefs coefs' : ℕ → ℕ → ℝ)
    (h : ∀ c jx, jx ≠ 0 → coefs' c jx = coefs c jx) :
    objectivex hm coefs' = objectivex hm coefs := by
  have hz : coefZ coefs' = coefZ coefs := by
    funext c jx
    unfold coefZ
    by_cases h0 : jx = 0
    · simp [h0]
    · simp [h0, h c jx h0]
  have h0 : lweights0 hm coefs' = lweights0 hm coefs := by
    funext jx k
    unfold lweights0 linpred
    rw [hz]
  unfold objectivex overflowP lweights
  rw [h0]

/-- Witness for C10: a coefficient matrix with a nonzero reference column
gives the same result as the zero matrix. -/
theorem c10_witness :
    objectivex exS (fun _ jx => if jx = 0 then (5 : ℝ) else 0)
      = objectivex exS exCoefs :=
  c10_reference_column_ignored exS exCoefs (fun _ jx => if jx = 0 then (5 : ℝ) else 0)
    (fun c jx hjx => by simp [hjx, exCoefs])

lemma flatMap_congr {α β : Type*} (l : List α) (f g : α → List β)
    (h : ∀ x ∈ l, f x = g x) : l.flatMap f = l.flatMap g := by
  induction l with
  | nil => rfl
  | cons a t ih =>
      simp only [List.flatMap_cons, h a (by simp)]
      rw [ih (fun x hx => h x (by simp [hx]))]

lemma nnzA_zero_entries (hm : HmmIn) (h : nnzA hm = 0) :
    ∀ i ∈ range hm.m, ∀ j ∈ range hm.m, hm.ANZ i j = 0 := by
  intro i hi j hj
  have h1 := (Finset.sum_eq_zero_iff.mp h) i hi
  have h2 := (Finset.sum_eq_zero_iff.mp h1) j hj
  by_contra hne
  simp [hne] at h2

lemma state_in_block_lt_m (hm : HmmIn) (hcov : BlocksCover hm) {jj b : ℕ}
    (hjj : jj < J hm) (hb : b < nos hm jj) : blockStart hm jj + b < hm.m := by
  have h1 := cumsumstate_eq hm jj
  have h2 := cumsumstate_le_sum hm jj
  unfold BlocksCover at hcov
  omega

lemma transSegs_flat (hm : HmmIn) (w : ℕ → ℕ → ℝ) (hA : Mask01A hm)
    (hcov : BlocksCover hm) :
    transSegs hm w
      = (List.range (J hm)).flatMap (fun jj =>
          (List.range (nos hm jj)).flatMap (fun i => segA hm w jj i)) := by
  unfold transSegs
  by_cases hg : 0 < sumANZ hm
  · rw [if_pos hg]
  · rw [if_neg hg]
    have hz : nnzA hm = 0 := by
      have hs := sumANZ_eq hm hA
      omega
    symm
    apply List.flatMap_eq_nil_iff.mpr
    intro jj hjj
    apply List.flatMap_eq_nil_iff.mpr
    intro i hi
    have hjj' : jj < J hm := List.mem_range.mp hjj
    have hi' : i < nos hm jj := List.mem_range.mp hi
    unfold segA
    rw [List.map_eq_nil_iff]
    unfold indA
    rw [List.filter_eq_nil_iff]
    intro b hb
    have hb' : b < nos hm jj := List.mem_range.mp hb
    have hrow : blockStart hm jj + i < hm.m := state_in_block_lt_m hm hcov hjj' hi'
    have hcol : blockStart hm jj + b < hm.m := state_in_block_lt_m hm hcov hjj' hb'
    have hzz := nnzA_zero_entries hm hz _ (Finset.mem_range.mpr hrow) _
      (Finset.mem_range.mpr hcol)
    simp [hzz]

lemma nnzB_zero_entries (hm : HmmIn) (h : nnzB hm = 0) :
    ∀ r ∈ range hm.rr, ∀ i ∈ range hm.m, ∀ v ∈ range (hm.p1 - 1), hm.BNZ i v r = 0 := by
  intro r hr i hi v hv
  have h1 := (Finset.sum_eq_zero_iff.mp h) r hr
  have h2 := (Finset.sum_eq_zero_iff.mp h1) i hi
  have h3 := (Finset.sum_eq_zero_iff.mp h2) v hv
  by_contra hne
  simp [hne] at h3

lemma emisSegs_flat (hm : HmmIn) (w : ℕ → ℕ → ℝ) (hB : Mask01B hm) :
    emisSegs hm w
      = (List.range hm.rr).flatMap (fun r =>
          (List.range hm.m).flatMap (fun i => segB hm w r i)) := by
  unfold emisSegs
  by_cases hg : 0 < sumBNZ hm
  · rw [if_pos hg]
  · rw [if_neg hg]
    have hz : nnzB hm = 0 := by
      have hs := sumBNZ_eq hm hB
      omega
    symm
    apply List.flatMap_eq_nil_iff.mpr
    intro r hr
    apply List.flatMap_eq_nil_iff.mpr
    intro i hi
    unfold segB
    rw [List.map_eq_nil_iff]
    unfold indB
    rw [List.filter_eq_nil_iff]
    intro v hv
    have hzz := nnzB_zero_entries hm hz _ (Finset.mem_range.mpr (List.mem_range.mp hr))
      _ (Finset.mem_range.mpr (List.mem_range.mp hi))
      _ (Finset.mem_range.mpr (List.mem_range.mp hv))
    simp [hzz]

lemma nnzI_zero_entries (hm : HmmIn) (h : nnzI hm = 0) :
    ∀ i ∈ range hm.m, hm.INZ i = 0 := by
  intro i hi
  have h1 := (Finset.sum_eq_zero_iff.mp h) i hi
  by_contra hne
  simp [hne] at h1

lemma initSegs_flat (hm : HmmIn) (w : ℕ → ℕ → ℝ) (hI : Mask01I hm)
    (hcov : BlocksCover hm) :
    initSegs hm w = (List.range (J hm)).flatMap (fun i => segI hm w i) := by
  unfold initSegs
  by_cases hg : 0 < sumINZ hm
  · rw [if_pos hg]
  · rw [if_neg hg]
    have hz : nnzI hm = 0 := by
      have hs := sumINZ_eq hm hI
      omega
    symm
    apply List.flatMap_eq_nil_iff.mpr
    intro i hi
    unfold segI
    rw [List.map_eq_nil_iff]
    unfold indI
    rw [List.filter_eq_nil_iff]
    intro b hb
    have hsm : blockStart hm i + b < hm.m :=
      state_in_block_lt_m hm hcov (List.mem_range.mp hi) (List.mem_range.mp hb)
    have hzz := nnzI_zero_entries hm hz _ (Finset.mem_range.mpr hsm)
    simp [hzz]

lemma objectivex_snd_decomp (hm : HmmIn) (coefs : ℕ → ℕ → ℝ) (hA : Mask01A hm)
    (hB : Mask01B hm) (hI : Mask01I hm) (hbl : BlockConfA hm) (hcov : BlocksCover hm)
    (hJ : 0 < J hm) (hnov : ¬ overflowP hm coefs) :
    (objectivex hm coefs).2
      = (transSegs hm (lweights hm coefs)).map (fun x => -x)
        ++ ((emisSegs hm (lweights hm coefs)).map (fun x => -x)
        ++ ((initSegs hm (lweights hm coefs)).map (fun x => -x)
        ++ (mixFlat hm (lweights hm coefs)).map (fun x => -x))) := by
  rw [objectivex_of_finite hm coefs hnov]
  simp only []
  rw [gradFull_eq_written hm (lweights hm coefs) hA hB hI hbl hcov hJ]
  unfold gradWritten
  simp [List.map_append, List.append_assoc]

/-- C4: the transition segment of the gradient.  For each block `jj` and
source state `i` in it, the raw vector accumulates over subjects and time
steps `alpha(i,t)·(∏_r emission(j, obs(t+1)))·beta(j,t+1)/scales(t+1)`
(`rawA`), it is left-multiplied by the simplex Jacobian
`diag(p) − p·pᵗ` of the block-restricted transition row `p` of state `i`,
and exactly the mask-selected entries are appended in order; the whole
gradient was negated at return, so the first `|ANZ|` returned entries are the
negated transition segment. -/
theorem c4_transition_gradient (hm : HmmIn) (coefs : ℕ → ℕ → ℝ)
    (hA : Mask01A hm) (hB : Mask01B hm) (hI : Mask01I hm)
    (hbl : BlockConfA hm) (hcov : BlocksCover hm) (hJ : 0 < J hm)
    (hnov : ¬ overflowP hm coefs) :
    (objectivex hm coefs).2.take (nnzA hm)
      = (List.range (J hm)).flatMap (fun jj =>
          (List.range (nos hm jj)).flatMap (fun i =>
            (indA hm jj i).map (fun a =>
              -(∑ b ∈ range (nos hm jj),
                  ((if a = b then pA hm jj i a else 0) - pA hm jj i a * pA hm jj i b)
                    * rawA hm (lweights hm coefs) jj i b)))) := by
  rw [objectivex_snd_decomp hm coefs hA hB hI hbl hcov hJ hnov]
  have hlen : ((transSegs hm (lweights hm coefs)).map (fun x => -x)).length = nnzA hm := by
    rw [List.length_map, length_transSegs hm (lweights hm coefs) hA hbl hcov]
  rw [← hlen, List.take_left]
  rw [transSegs_flat hm (lweights hm coefs) hA hcov, List.map_flatMap]
  apply flatMap_congr
  intro jj _
  rw [List.map_flatMap]
  apply flatMap_congr
  intro i _
  unfold segA
  rw [List.map_map]
  apply List.map_congr_left
  intro a _
  simp only [Function.comp_apply]
  congr 1
  apply Finset.sum_congr rfl
  intro b _
  by_cases hab : a = b
  · subst hab
    rw [if_pos rfl, if_pos rfl]
    ring
  · rw [if_neg hab, if_neg hab]
    ring

/-- Witness for C4 at the concrete model `exS`. -/
theorem c4_witness :
    Mask01A exS ∧ BlockConfA exS ∧ ¬ overflowP exS exCoefs ∧
      (objectivex exS exCoefs).2.take (nnzA exS)
        = (List.range (J exS)).flatMap (fun jj =>
            (List.range (nos exS jj)).flatMap (fun i =>
              (indA exS jj i).map (fun a =>
                -(∑ b ∈ range (nos exS jj),
                    ((if a = b then pA exS jj i a else 0) - pA exS jj i a * pA exS jj i b)
                      * rawA exS (lweights exS exCoefs) jj i b)))) :=
  ⟨by decide, by decide, exS_nov,
    c4_transition_gradient exS exCoefs (by decide) (by decide) (by decide) (by decide)
      (by decide) (by decide) exS_nov⟩

/-- C5: the emission segment of the gradient.  For each channel `r` and state
`i`, `rawB` accumulates, over subjects and time steps where the channel-`r`
symbol equals the slot, `initk(i,k)·otherChannels·beta(i,0)/scales(0)` at
time 0 and `(alpha(·,t−1)·transitionColumn(i))·otherChannels·beta(i,t)/scales(t)`
at later times; the simplex Jacobian `diag(p) − p·pᵗ` of state `i`'s
channel-`r` emission row (restricted to the alphabet size) is applied, and
exactly the `BNZ`-selected entries are appended after the transition
segment (negated at return). -/
theorem c5_emission_gradient (hm : HmmIn) (coefs : ℕ → ℕ → ℝ)
    (hA : Mask01A hm) (hB : Mask01B hm) (hI : Mask01I hm)
    (hbl : BlockConfA hm) (hcov : BlocksCover hm) (hJ : 0 < J hm)
    (hbb : MaskBBound hm) (hnov : ¬ overflowP hm coefs) :
    ((objectivex hm coefs).2.drop (nnzA hm)).take (nnzB hm)
      = (List.range hm.rr).flatMap (fun r =>
          (List.range hm.m).flatMap (fun i =>
            (indB hm r i).map (fun a =>
              -(∑ b ∈ range (hm.nSymbols r),
                  ((if a = b then pB hm r i a else 0) - pB hm r i a * pB hm r i b)
                    * rawB hm (lweights hm coefs) r i b)))) := by
  rw [objectivex_snd_decomp hm coefs hA hB hI hbl hcov hJ hnov]
  have hlenT : ((transSegs hm (lweights hm coefs)).map (fun x => -x)).length = nnzA hm := by
    rw [List.length_map, length_transSegs hm (lweights hm coefs) hA hbl hcov]
  have hlenE : ((emisSegs hm (lweights hm coefs)).map (fun x => -x)).length = nnzB hm := by
    rw [List.length_map, length_emisSegs hm (lweights hm coefs) hB]
  rw [← hlenT, List.drop_left, ← hlenE, List.take_left]
  rw [emisSegs_flat hm (lweights hm coefs) hB, List.map_flatMap]
  apply flatMap_congr
  intro r _
  rw [List.map_flatMap]
  apply flatMap_congr
  intro i _
  unfold segB
  rw [List.map_map]
  apply List.map_congr_left
  intro a _
  simp only [Function.comp_apply]
  congr 1
  apply Finset.sum_congr rfl
  intro b _
  by_cases hab : a = b
  · subst hab
    rw [if_pos rfl, if_pos rfl]
    ring
  · rw [if_neg hab, if_neg hab]
    ring

/-- Witness for C5 at the concrete model `exS`. -/
theorem c5_witness :
    Mask01B exS ∧ MaskBBound exS ∧ ¬ overflowP exS exCoefs ∧
      ((objectivex exS exCoefs).2.drop (nnzA exS)).take (nnzB exS)
        = (List.range exS.rr).flatMap (fun r =>
            (List.range exS.m).flatMap (fun i =>
              (indB exS r i).map (fun a =>
                -(∑ b ∈ range (exS.nSymbols r),
                    ((if a = b then pB exS r i a else 0) - pB exS r i a * pB exS r i b)
                      * rawB exS (lweights exS exCoefs) r i b)))) :=
  ⟨by decide, by decide, exS_nov,
    c5_emission_gradient exS exCoefs (by decide) (by decide) (by decide) (by decide)
      (by decide) (by decide) (by decide) exS_nov⟩

/-- C6: the initial-distribution segment of the gradient.  For each block
with a free initial entry, `rawI` accumulates over subjects
`(∏_r emission(state, obs at 0))·beta(state,0)/scales(0)·lweights(block,k)`,
the simplex Jacobian `diag(p) − p·pᵗ` of the block's slice of π is applied,
and exactly the `INZ`-selected entries are appended after the emission
segment (negated at return). -/
theorem c6_initial_gradient (hm : HmmIn) (coefs : ℕ → ℕ → ℝ)
    (hA : Mask01A hm) (hB : Mask01B hm) (hI : Mask01I hm)
    (hbl : BlockConfA hm) (hcov : BlocksCover hm) (hJ : 0 < J hm)
    (hnov : ¬ overflowP hm coefs) :
    (((objectivex hm coefs).2.drop (nnzA hm)).drop (nnzB hm)).take (nnzI hm)
      = (List.range (J hm)).flatMap (fun i =>
          (indI hm i).map (fun a =>
            -(∑ b ∈ range (nos hm i),
                ((if a = b then pI hm i a else 0) - pI hm i a * pI hm i b)
                  * rawI hm (lweights hm coefs) i b))) := by
  rw [objectivex_snd_decomp hm coefs hA hB hI hbl hcov hJ hnov]
  have hlenT : ((transSegs hm (lweights hm coefs)).map (fun x => -x)).length = nnzA hm := by
    rw [List.length_map, length_transSegs hm (lweights hm coefs) hA hbl hcov]
  have hlenE : ((emisSegs hm (lweights hm coefs)).map (fun x => -x)).length = nnzB hm := by
    rw [List.length_map, length_emisSegs hm (lweights hm coefs) hB]
  have hlenI : ((initSegs hm (lweights hm coefs)).map (fun x => -x)).length = nnzI hm := by
    rw [List.length_map, length_initSegs hm (lweights hm coefs) hI hcov]
  rw [← hlenT, List.drop_left, ← hlenE, List.drop_left, ← hlenI, List.take_left]
  rw [initSegs_flat hm (lweights hm coefs) hI hcov, List.map_flatMap]
  apply flatMap_congr
  intro i _
  unfold segI
  rw [List.map_map]
  apply List.map_congr_left
  intro a _
  simp only [Function.comp_apply]
  congr 1
  apply Finset.sum_congr rfl
  intro b _
  by_cases hab : a = b
  · subst hab
    rw [if_pos rfl, if_pos rfl]
    ring
  · rw [if_neg hab, if_neg hab]
    ring

/-- Witness for C6 at the concrete model `exS`. -/
theorem c6_witness :
    Mask01I exS ∧ BlocksCover exS ∧ ¬ overflowP exS exCoefs ∧
      (((objectivex exS exCoefs).2.drop (nnzA exS)).drop (nnzB exS)).take (nnzI exS)
        = (List.range (J exS)).flatMap (fun i =>
            (indI exS i).map (fun a =>
              -(∑ b ∈ range (nos exS i),
                  ((if a = b then pI exS i a else 0) - pI exS i a * pI exS i b)
                    * rawI exS (lweights exS exCoefs) i b))) :=
  ⟨by decide, by decide, exS_nov,
    c6_initial_gradient exS exCoefs (by decide) (by decide) (by decide) (by decide)
      (by decide) (by decide) exS_nov⟩

/-- C7: the mixture-coefficient segment.  The last `(J−1)·q` gradient
positions hold, for each non-reference block `jj = 1 … J−1` in order, a
q-vector accumulating over subjects `k` and all states `j` the scalar
`(∏_r emission(j, obs(k,0,r)))·beta(j,0,k)/scales(0,k)·initk(j,k)` times the
covariate `X(k,c)`, with factor `1 − lweights(jj,k)` when `j` lies in block
`jj` and subtracted with factor `lweights(jj,k)` otherwise (all negated at
return). -/
theorem c7_mixture_gradient (hm : HmmIn) (coefs : ℕ → ℕ → ℝ)
    (hA : Mask01A hm) (hB : Mask01B hm) (hI : Mask01I hm)
    (hbl : BlockConfA hm) (hcov : BlocksCover hm) (hJ : 0 < J hm)
    (hnov : ¬ overflowP hm coefs) :
    ((objectivex hm coefs).2.drop (nnzA hm + nnzB hm + nnzI hm))
      = ((List.range (J hm)).drop 1).flatMap (fun jj =>
          (List.range hm.q).map (fun c =>
            -(∑ k ∈ range hm.kk, ∑ j ∈ range hm.m,
                if blockStart hm jj ≤ j ∧ j < cumsumstate hm jj then
                  emisAt hm j k 0 * betav hm (lweights hm coefs) j 0 k
                    / scales hm (lweights hm coefs) 0 k * initk hm (lweights hm coefs) j k
                    * hm.X k c * (1 - lweights hm coefs jj k)
                else
                  -(emisAt hm j k 0 * betav hm (lweights hm coefs) j 0 k
                    / scales hm (lweights hm coefs) 0 k * initk hm (lweights hm coefs) j k
                    * hm.X k c * lweights hm coefs jj k)))) := by
  rw [objectivex_snd_decomp hm coefs hA hB hI hbl hcov hJ hnov]
  have hlenT : ((transSegs hm (lweights hm coefs)).map (fun x => -x)).length = nnzA hm := by
    rw [List.length_map, length_transSegs hm (lweights hm coefs) hA hbl hcov]
  have hlenE : ((emisSegs hm (lweights hm coefs)).map (fun x => -x)).length = nnzB hm := by
    rw [List.length_map, length_emisSegs hm (lweights hm coefs) hB]
  have hlenI : ((initSegs hm (lweights hm coefs)).map (fun x => -x)).length = nnzI hm := by
    rw [List.length_map, length_initSegs hm (lweights hm coefs) hI hcov]
  rw [← List.drop_drop, ← List.drop_drop]
  rw [← hlenT, List.drop_left, ← hlenE, List.drop_left, ← hlenI, List.drop_left]
  unfold mixFlat
  rw [List.map_flatMap]
  apply flatMap_congr
  intro jj _
  unfold mixSeg
  rw [List.map_map]
  rfl

/-- Witness for C7 at the concrete model `exS`. -/
theorem c7_witness :
    BlocksCover exS ∧ 0 < J exS ∧ ¬ overflowP exS exCoefs ∧
      ((objectivex exS exCoefs).2.drop (nnzA exS + nnzB exS + nnzI exS))
        = ((List.range (J exS)).drop 1).flatMap (fun jj =>
            (List.range exS.q).map (fun c =>
              -(∑ k ∈ range exS.kk, ∑ j ∈ range exS.m,
                  if blockStart exS jj ≤ j ∧ j < cumsumstate exS jj then
                    emisAt exS j k 0 * betav exS (lweights exS exCoefs) j 0 k
                      / scales exS (lweights exS exCoefs) 0 k
                      * initk exS (lweights exS exCoefs) j k
                      * exS.X k c * (1 - lweights exS exCoefs jj k)
                  else
                    -(emisAt exS j k 0 * betav exS (lweights exS exCoefs) j 0 k
                      / scales exS (lweights exS exCoefs) 0 k
                      * initk exS (lweights exS exCoefs) j k
                      * exS.X k c * lweights exS exCoefs jj k)))) :=
  ⟨by decide, by decide, exS_nov,
    c7_mixture_gradient exS exCoefs (by decide) (by decide) (by decide) (by decide)
      (by decide) (by decide) exS_nov⟩

end

end SeqHMM
